import Mathlib

/-
Verification development for the epub2json conversion pipeline
(src/index.js).  The JavaScript source is shallowly embedded: pure
computations become Lean functions, the callback/promise machinery of
the batch scheduler becomes an explicit command-driven state machine
whose nondeterministic schedules model the possible event-loop
interleavings, and filesystem reads become functions over an explicit
world record.
-/

set_option linter.unusedVariables false

namespace Epub2Json

/-- Model of Node posix path.basename: trailing slashes are ignored and
the last path component is returned. -/
def basename (p : String) : String :=
  String.mk (((p.toList.reverse.dropWhile (fun c => c == '/')).takeWhile
    (fun c => c != '/')).reverse)

/-- Index of the last dot character of a list of characters, if any. -/
def lastDotIdx (cs : List Char) : Option Nat :=
  match List.findIdx? (fun c => c == '.') cs.reverse with
  | none => none
  | some j => some (cs.length - 1 - j)

/-- Model of Node path.parse(p).name: the basename of p with its final
extension removed; a dot in the leading position does not start an
extension, and the special component dot-dot has no extension. -/
def parseNameNode (f : String) : String :=
  let base := basename f
  if base = ".." then base
  else
    match lastDotIdx base.toList with
    | none => base
    | some 0 => base
    | some i => String.mk (base.toList.take i)

/-- Segment resolution used by path normalization: drops single-dot
segments and lets dot-dot segments pop the previous segment (absolute
paths drop leading dot-dot, relative paths keep it). -/
def resolveDots (isAbs : Bool) (segs : List String) : List String :=
  (segs.foldl (fun acc seg =>
      if seg = "." then acc
      else if seg = ".." then
        match acc with
        | [] => if isAbs then [] else [".."]
        | a :: rest => if a = ".." then seg :: acc else rest
      else seg :: acc) []).reverse

/-- Splits a character list at slash characters, keeping empty
segments, like String.split at a slash predicate. -/
def splitOnSlash : List Char → List (List Char)
  | [] => [[]]
  | c :: rest =>
    if c = '/' then [] :: splitOnSlash rest
    else
      match splitOnSlash rest with
      | [] => [[c]]
      | s :: ss => (c :: s) :: ss

/-- Joins segments with slash separators, like String.intercalate with
a slash. -/
def joinSlash : List String → String
  | [] => ""
  | [s] => s
  | s :: rest => s ++ "/" ++ joinSlash (rest)

/-- Model of Node posix path.normalize: collapses repeated slashes,
resolves single-dot and dot-dot segments, preserves a trailing slash,
and maps the empty string to a single dot. -/
def normalize (p : String) : String :=
  if p = "" then "."
  else
    let isAbs := p.toList.head? == some '/'
    let hasTrail := p.toList.getLast? == some '/'
    let core := resolveDots isAbs
      (((splitOnSlash p.toList).map String.mk).filter (fun s => s != ""))
    if core.isEmpty then (if isAbs then "/" else if hasTrail then "./" else ".")
    else (if isAbs then "/" else "") ++ joinSlash core
      ++ (if hasTrail then "/" else "")

/-- Metadata record delivered by the epub library on the end event.
A field that the archive does not declare is absent, which in
JavaScript reads as undefined; this is modelled by Option. -/
structure EpubMetadata where
  creator : Option String
  title : Option String
  language : Option String
  subject : Option String
  date : Option String
  description : Option String
  deriving DecidableEq, Repr

/-- Abstract archive handle exposed by the epub collaborator: metadata,
the spine (reading order) as a list of chapter ids, and per-id chapter
resolution which may fail. -/
structure Epub where
  metadata : EpubMetadata
  flow : List String
  getChapter : String → Except String String

/-- The normalized Book record built by parseEpub in src/index.js.
The six metadata fields are initialized to the empty string and then
overwritten verbatim from the archive metadata, so after assembly they
hold whatever JavaScript value the metadata had, including undefined;
hence Option String. The chapters object is an insertion-ordered
association list, matching JavaScript object semantics. -/
structure Book where
  filename : String
  creator : Option String
  title : Option String
  language : Option String
  subject : Option String
  date : Option String
  description : Option String
  chapterIds : List String
  chapters : List (String × String)
  deriving DecidableEq, Repr

/-- The freshly constructed book record of parseEpub: filename is
path.basename of the archive path (extension kept), metadata fields are
empty strings, chapter data empty. -/
def initBook (ePubPath : String) : Book :=
  { filename := basename ePubPath
    creator := some ""
    title := some ""
    language := some ""
    subject := some ""
    date := some ""
    description := some ""
    chapterIds := []
    chapters := [] }

/-- The metadata copy performed in the end handler of parseEpub: each
field of the book is overwritten verbatim with the corresponding
archive metadata field (which may be undefined). -/
def applyMetadata (b : Book) (m : EpubMetadata) : Book :=
  { b with
    creator := m.creator
    title := m.title
    language := m.language
    subject := m.subject
    date := m.date
    description := m.description }

/-- Key membership test for the JavaScript-object model. -/
def objHasKey : List (String × String) → String → Bool
  | [], _ => false
  | kv :: rest, k => if kv.1 = k then true else objHasKey rest k

/-- Property read of the JavaScript-object model: the value at the
first (and, under key uniqueness, only) matching key. -/
def objGet : List (String × String) → String → Option String
  | [], _ => none
  | kv :: rest, k => if kv.1 = k then some kv.2 else objGet rest k

/-- Keys of the JavaScript-object model, in insertion order. -/
def objKeys (o : List (String × String)) : List String :=
  o.map Prod.fst

/-- Property assignment of the JavaScript-object model: an existing key
keeps its position and gets the new value, a new key is appended. -/
def objInsert (o : List (String × String)) (k v : String) : List (String × String) :=
  if objHasKey o k then o.map (fun kv => if kv.1 = k then (k, v) else kv)
  else o ++ [(k, v)]

/-- One step of the reduce in parseEpub: push the chapter id onto
chapterIds and assign the chapter text under that id in chapters. -/
def bookInsertChapter (b : Book) (c : String × String) : Book :=
  { b with
    chapterIds := b.chapterIds ++ [c.1]
    chapters := objInsert b.chapters c.1 c.2 }

/-- The reduce over the resolved chapter array in parseEpub. -/
def assembleReduce (b : Book) (chs : List (String × String)) : Book :=
  chs.foldl bookInsertChapter b

/-- The per-chapter promises created in parseEpub: one task per spine
entry, resolving to the pair of the chapter id and its text, rejecting
with the chapter read error. -/
def chapterTasks (e : Epub) : List (Except String (String × String)) :=
  e.flow.map (fun id => (e.getChapter id).map (fun t => (id, t)))

/-- First rejection among the tasks in settle order: the error of the
first task (under the given settle order of task indices) that is
rejected, if any. -/
def firstReject (tasks : List (Except String α)) : List Nat → Option String
  | [] => none
  | i :: rest =>
    match tasks.get? i with
    | some (Except.error e) => some e
    | _ => firstReject tasks rest

/-- Collects the values of the tasks in input order, or returns the
first error in input order. -/
def collectOk : List (Except String α) → Except String (List α)
  | [] => Except.ok []
  | t :: rest =>
    match t with
    | Except.error e => Except.error e
    | Except.ok a =>
      match collectOk rest with
      | Except.error e => Except.error e
      | Except.ok vs => Except.ok (a :: vs)

/-- Model of JavaScript Promise.all over an explicit settle order:
it rejects with the error of the first task to settle among the
rejecting ones, and otherwise resolves with all values in the original
input order, independently of the settle order. -/
def promiseAll (tasks : List (Except String α)) (sched : List Nat) :
    Except String (List α) :=
  match firstReject tasks sched with
  | some e => Except.error e
  | none => collectOk tasks

/-- Model of parseEpub from src/index.js, parameterized by the settle
order of the concurrent chapter resolutions: build the initial book,
overwrite the metadata fields verbatim, issue one chapter task per
spine entry, join them Promise.all style, and on success reduce the
resolved chapters into the book. Rejection of any chapter task rejects
the whole conversion. -/
def parseEpubSched (ePubPath : String) (e : Epub) (sched : List Nat) :
    Except String Book :=
  match promiseAll (chapterTasks e) sched with
  | Except.error err => Except.error err
  | Except.ok chs =>
      Except.ok (assembleReduce (applyMetadata (initBook ePubPath) e.metadata) chs)

/-- Total chapter text read: the resolved text when resolution
succeeds, the empty string otherwise. Used only to name the canonical
successful result. -/
def chapterTextD (e : Epub) (id : String) : String :=
  match e.getChapter id with
  | Except.ok t => t
  | Except.error _ => ""

/-- The canonical successful result of parseEpub: every spine chapter
reduced into the metadata-populated initial book, in spine order. -/
def bookOf (ePubPath : String) (e : Epub) : Book :=
  assembleReduce (applyMetadata (initBook ePubPath) e.metadata)
    (e.flow.map (fun id => (id, chapterTextD e id)))

/-- The output file path computed by writeJSON in src/index.js:
path.normalize(outputPath) + slash + path.parse(book.filename).name +
the json extension. -/
def outputFileName (b : Book) (outputPath : String) : String :=
  normalize outputPath ++ "/" ++ parseNameNode b.filename ++ ".json"

/-- The keys that JSON.stringify emits for a Book: a property whose
value is undefined is omitted from the serialized object; filename is
always a string and chapterIds and chapters are always present. Keys
appear in property insertion order. -/
def serializedKeys (b : Book) : List String :=
  ["filename"]
    ++ (if b.creator.isSome then ["creator"] else [])
    ++ (if b.title.isSome then ["title"] else [])
    ++ (if b.language.isSome then ["language"] else [])
    ++ (if b.subject.isSome then ["subject"] else [])
    ++ (if b.date.isSome then ["date"] else [])
    ++ (if b.description.isSome then ["description"] else [])
    ++ ["chapterIds", "chapters"]

/-- Observable and internal events of one run of convertAction:
spinner control, parse task start and settlement, write start and the
write callback log lines, and the error dump of a failed conversion.
The runSummary constructor is modelled from the spec: the spec
describes a RunSummary with counts of attempted, succeeded and failed
conversions emitted on completion of the final group; no code in
src/index.js produces it, and it is included in the event vocabulary
only so that its emission can be stated and refuted. -/
inductive Ev where
  | spinnerStart : Ev
  | parseStart : String → Ev
  | parseSettle : String → Bool → Ev
  | writeStart : String → Ev
  | logOutput : String → Ev
  | logWriteError : String → Ev
  | logParseError : String → Ev
  | spinnerText : String → Ev
  | spinnerStop : Ev
  | runSummary : Nat → Nat → Nat → Ev
  deriving DecidableEq, Repr

/-- The log lines emitted by the fs.writeFile callback in writeJSON:
the Output line is logged unconditionally, and on a write error the
Unable-to-write line is additionally printed. The callback swallows
the error, so no failure escapes to the caller. -/
def writeCallbackEvents (f : String) (werr : Option String) : List Ev :=
  Ev.logOutput f ::
    (match werr with
     | some _ => [Ev.logWriteError f]
     | none => [])

/-- Model of one full writeJSON call for a book: compute the output
file path, start the asynchronous write, and later run the callback
with the write outcome. The function is total and returns only the
emitted events: writeJSON raises nothing to its caller. -/
def writeJSONEvents (b : Book) (outputPath : String) (werr : Option String) :
    List Ev :=
  Ev.writeStart (outputFileName b outputPath) ::
    writeCallbackEvents (outputFileName b outputPath) werr

/-- A run configuration: the discovered path list in discovery order
plus the (outcome of the) conversion and write of each path, and the
output directory. Outcomes are fixed per input because parseEpub is a
function of the archive and fs.writeFile of the destination. -/
structure RunCfg where
  paths : List String
  parseOut : String → Except String Book
  writeOut : String → Option String
  outputPath : String

/-- The group size hard-coded as chunkSize in convertAction. -/
def chunkSize : Nat := 10

/-- Math.ceil(paths.length / chunkSize) from convertAction. -/
def numChunks (cfg : RunCfg) : Nat :=
  (cfg.paths.length + (chunkSize - 1)) / chunkSize

/-- paths.slice(g * chunkSize, g * chunkSize + chunkSize): the
contiguous group of at most chunkSize paths processed as chunk g. -/
def groupPaths (cfg : RunCfg) (g : Nat) : List String :=
  (cfg.paths.drop (chunkSize * g)).take chunkSize

/-- State of the event-loop model of convertAction: the chunk index
the loop is at, the unsettled parse promises of the current chunk, the
started but not yet completed writeFile operations, whether the await
of the chunk Promise.all has thrown (which abandons the loop), whether
the loop has run to completion, and the trace of emitted events. -/
structure RunState where
  chunkIdx : Nat
  pendingParses : List String
  pendingWrites : List String
  aborted : Bool
  finished : Bool
  trace : List Ev
  deriving Repr

/-- Scheduler commands, each one possible event-loop completion: a
parse promise of the current chunk settles (running its then/catch
continuations synchronously after it), a started write completes
(running the writeFile callback), or the awaited chunk Promise.all
resolves and the loop advances to the next chunk (or finishes). -/
inductive Cmd where
  | settleParse : String → Cmd
  | finishWrite : String → Cmd
  | advance : Cmd
  deriving DecidableEq, Repr

/-- Initial state of the run: the spinner starts, and the first chunk
of parse tasks is created synchronously inside the first await; with
zero discovered paths the loop body never runs and the spinner is
stopped immediately. -/
def initState (cfg : RunCfg) : RunState :=
  { chunkIdx := 0
    pendingParses := groupPaths cfg 0
    pendingWrites := []
    aborted := false
    finished := decide (numChunks cfg = 0)
    trace := Ev.spinnerStart :: (groupPaths cfg 0).map Ev.parseStart
      ++ (if numChunks cfg = 0 then [Ev.spinnerStop] else []) }

/-- One event-loop step of convertAction. A settling parse promise
runs writeJSON on success (starting the write) and the catch logger on
failure; a failure also rejects the chunk Promise.all, whose awaited
rejection permanently abandons the loop (aborted). A completing write
runs the writeFile callback. The loop advances only when every parse
promise of the current chunk has settled and none was rejected; on the
last chunk it stops the spinner. Commands that are not enabled leave
the state unchanged. -/
def applyCmd (cfg : RunCfg) (s : RunState) : Cmd → RunState
  | Cmd.settleParse p =>
    if p ∈ s.pendingParses then
      match cfg.parseOut p with
      | Except.ok b =>
        let f := outputFileName b cfg.outputPath
        { s with
          pendingParses := s.pendingParses.erase p
          pendingWrites := s.pendingWrites ++ [f]
          trace := s.trace ++ [Ev.parseSettle p true, Ev.writeStart f] }
      | Except.error _ =>
        { s with
          pendingParses := s.pendingParses.erase p
          aborted := true
          trace := s.trace ++ [Ev.parseSettle p false, Ev.logParseError p] }
    else s
  | Cmd.finishWrite f =>
    if f ∈ s.pendingWrites then
      { s with
        pendingWrites := s.pendingWrites.erase f
        trace := s.trace ++ writeCallbackEvents f (cfg.writeOut f) }
    else s
  | Cmd.advance =>
    if s.pendingParses.isEmpty && !s.aborted && !s.finished then
      let c := s.chunkIdx
      if c + 1 < numChunks cfg then
        { s with
          chunkIdx := c + 1
          pendingParses := groupPaths cfg (c + 1)
          trace := s.trace ++ Ev.spinnerText ("chunk " ++ toString c)
            :: (groupPaths cfg (c + 1)).map Ev.parseStart }
      else
        { s with
          chunkIdx := c + 1
          finished := true
          trace := s.trace
            ++ [Ev.spinnerText ("chunk " ++ toString c), Ev.spinnerStop] }
    else s

/-- A run is the initial state driven by a list of scheduler commands;
quantifying over all command lists quantifies over all event-loop
interleavings and all reachable states of the run. -/
def run (cfg : RunCfg) (cmds : List Cmd) : RunState :=
  cmds.foldl (applyCmd cfg) (initState cfg)

/-- The parse task for path p has been created. -/
def startedIn (t : List Ev) (p : String) : Prop :=
  Ev.parseStart p ∈ t

/-- The parse task for path p has settled, successfully or not. -/
def settledIn (t : List Ev) (p : String) : Prop :=
  Ev.parseSettle p true ∈ t ∨ Ev.parseSettle p false ∈ t

/-- Whether event a occurs strictly before event b in the trace. -/
def occursBefore (t : List Ev) (a b : Ev) : Bool :=
  ((t.dropWhile (fun e => !(e == a))).drop 1).any (fun e => e == b)

/-- Boolean membership of an event in a trace. -/
def evMem (t : List Ev) (e : Ev) : Bool :=
  t.any (fun x => decide (x = e))

/-- Filesystem world as read by validPath: whether stat sees the path
(existsSync follows symlinks), whether lstat classifies it as a
directory, and whether accessSync with the given mode succeeds. -/
structure FsWorld where
  statExists : String → Bool
  lstatIsDir : String → Bool
  accessOk : String → Nat → Bool

/-- The fs access mode constant for read permission. -/
def R_OK : Nat := 4

/-- The fs access mode constant for write permission. -/
def W_OK : Nat := 2

/-- The fs access mode constant for execute and traverse permission. -/
def X_OK : Nat := 1

/-- Model of validPath from src/index.js: existsSync, then
lstatSync(..).isDirectory(), then accessSync in a try block that turns
a thrown access error into false. The world is threaded through and
returned unchanged: the function only reads it. -/
def validPath (w : FsWorld) (testPath : String) (mode : Nat) :
    Bool × FsWorld :=
  let ok := w.statExists testPath
  let ok := if ok then w.lstatIsDir testPath else ok
  let ok := if ok then (if w.accessOk testPath mode then ok else false) else ok
  (ok, w)

/-- validInput from src/index.js: validPath with the default mode,
read plus execute. -/
def validInput (w : FsWorld) (inputPath : String) : Bool × FsWorld :=
  validPath w inputPath (R_OK ||| X_OK)

/-- validOutput from src/index.js: validPath with write access. -/
def validOutput (w : FsWorld) (outputPath : String) : Bool × FsWorld :=
  validPath w outputPath W_OK

/-- Checks whether an exceptional computation succeeded. -/
def isOkE : Except String α → Bool
  | Except.ok _ => true
  | Except.error _ => false

/-- A book coherent with a text function: chapter values are a
function of the key (as produced by the chapter resolution of a fixed
archive), the chapters object has unique keys, its key set is exactly
the set of entries of chapterIds, and the object has at most as many
entries as the id sequence. -/
def GoodBook (g : String → String) (b : Book) : Prop :=
  (∀ c ∈ b.chapters, c.2 = g c.1) ∧
  (objKeys b.chapters).Nodup ∧
  (∀ k, k ∈ objKeys b.chapters ↔ k ∈ b.chapterIds) ∧
  b.chapters.length ≤ b.chapterIds.length

/-- The paths whose parse task has been created while the loop is at
the current chunk: all paths of the groups up to and including it. -/
def startedList (cfg : RunCfg) (s : RunState) : List String :=
  cfg.paths.take (chunkSize * (s.chunkIdx + 1))

/-- Invariant of every reachable state of the run: an unfinished loop
is at a real chunk; a parse task has started exactly for the paths of
the groups up to the current chunk; the unsettled parse tasks all
belong to the current group; and every started path that is no longer
pending has settled. -/
structure SchedInv (cfg : RunCfg) (s : RunState) : Prop where
  hfin : s.finished = false → s.chunkIdx < numChunks cfg
  hstart : ∀ r, Ev.parseStart r ∈ s.trace ↔ r ∈ startedList cfg s
  hpend : ∀ r, r ∈ s.pendingParses → r ∈ groupPaths cfg s.chunkIdx
  hdone : ∀ r, r ∈ startedList cfg s → r ∉ s.pendingParses → settledIn s.trace r

/-- Sample archive with one readable chapter and full metadata. -/
def epubA : Epub :=
  { metadata := { creator := some "A. Writer", title := some "T", language := some "en",
                  subject := some "S", date := some "2020", description := some "D" }
    flow := ["c1"]
    getChapter := fun id => if id = "c1" then Except.ok "hello" else Except.error "no such chapter" }

/-- Sample archive whose only chapter fails to resolve. -/
def epubBad : Epub :=
  { metadata := { creator := some "A. Writer", title := some "T", language := some "en",
                  subject := some "S", date := some "2020", description := some "D" }
    flow := ["c1"]
    getChapter := fun _ => Except.error "chapter read error" }

/-- Sample archive whose spine lists the same chapter id twice. -/
def epubDup : Epub :=
  { metadata := { creator := some "A. Writer", title := some "T", language := some "en",
                  subject := some "S", date := some "2020", description := some "D" }
    flow := ["c1", "c1"]
    getChapter := fun id => if id = "c1" then Except.ok "once" else Except.error "no such chapter" }

/-- Sample archive whose metadata record lacks the creator field. -/
def epubNoCreator : Epub :=
  { metadata := { creator := none, title := some "T", language := some "L",
                  subject := some "S", date := some "D", description := some "X" }
    flow := ["c1"]
    getChapter := fun id => if id = "c1" then Except.ok "body" else Except.error "no such chapter" }

/-- A trivially successful conversion outcome for concrete run
configurations. -/
def okParse (p : String) : Except String Book := Except.ok (initBook p)

/-- Eleven discovered paths: the scheduler splits them into a group of
ten and a group of one. -/
def elevenPaths : List String :=
  ["a0.epub", "a1.epub", "a2.epub", "a3.epub", "a4.epub", "a5.epub",
   "a6.epub", "a7.epub", "a8.epub", "a9.epub", "a10.epub"]

/-- Run configuration in which every conversion and write succeeds. -/
def cfgOk : RunCfg :=
  { paths := elevenPaths
    parseOut := okParse
    writeOut := fun _ => none
    outputPath := "o" }

/-- One complete schedule for cfgOk: settle the ten parses of group
zero, advance to group one, and only then let the first write of group
zero complete. -/
def cmdsOk : List Cmd :=
  [Cmd.settleParse "a0.epub", Cmd.settleParse "a1.epub", Cmd.settleParse "a2.epub",
   Cmd.settleParse "a3.epub", Cmd.settleParse "a4.epub", Cmd.settleParse "a5.epub",
   Cmd.settleParse "a6.epub", Cmd.settleParse "a7.epub", Cmd.settleParse "a8.epub",
   Cmd.settleParse "a9.epub", Cmd.advance, Cmd.finishWrite "o/a0.json"]

/-- Run configuration in which the first archive of group zero fails
to convert (a chapter read error rejects its parse promise) and every
other conversion succeeds. -/
def cfgFail : RunCfg :=
  { paths := elevenPaths
    parseOut := fun p =>
      if p = "a0.epub" then Except.error "chapter read error" else okParse p
    writeOut := fun _ => none
    outputPath := "o" }

/-- Run configuration over an input directory with no matching
archives. -/
def cfgEmpty : RunCfg :=
  { paths := []
    parseOut := okParse
    writeOut := fun _ => none
    outputPath := "o" }

/-- Invariant of every reachable state of the failing run cfgFail: the
failing first path is still pending or the loop has been abandoned, so
the second group never starts, the spinner is never stopped and not
even the group-zero progress notification is reached. -/
def C1Inv (s : RunState) : Prop :=
  ("a0.epub" ∈ s.pendingParses ∨ s.aborted = true) ∧
  Ev.parseStart "a10.epub" ∉ s.trace ∧
  Ev.spinnerStop ∉ s.trace ∧
  Ev.spinnerText "chunk 0" ∉ s.trace

theorem foldl_inv {α β : Type} (f : β → α → β) (P : β → Prop)
    (hstep : ∀ s c, P s → P (f s c)) :
    ∀ (l : List α) (s : β), P s → P (l.foldl f s) := by
  intro l
  induction l with
  | nil => intro s h; exact h
  | cons c rest ih =>
      intro s h
      simpa using ih (f s c) (hstep s c h)

theorem bookInsertChapter_chapters (b : Book) (c : String × String) :
    (bookInsertChapter b c).chapters = objInsert b.chapters c.1 c.2 := rfl

theorem bookInsertChapter_chapterIds (b : Book) (c : String × String) :
    (bookInsertChapter b c).chapterIds = b.chapterIds ++ [c.1] := rfl

theorem objHasKey_iff (k : String) :
    ∀ (o : List (String × String)), objHasKey o k = true ↔ k ∈ objKeys o := by
  intro o
  induction o with
  | nil => simp [objHasKey, objKeys]
  | cons kv rest ih =>
      by_cases h : kv.1 = k
      · simp [objHasKey, objKeys, h]
      · simp only [objHasKey, if_neg h, objKeys, List.map_cons, List.mem_cons]
        rw [show (List.map Prod.fst rest) = objKeys rest from rfl, ih]
        constructor
        · exact fun hh => Or.inr hh
        · rintro (hh | hh)
          · exact absurd hh.symm h
          · exact hh

theorem objKeys_append_single (o : List (String × String)) (k w : String) :
    objKeys (o ++ [(k, w)]) = objKeys o ++ [k] := by
  simp [objKeys]

theorem objGet_of_hasKey (k : String) :
    ∀ (o : List (String × String)), objHasKey o k = true →
      ∃ v, objGet o k = some v := by
  intro o
  induction o with
  | nil => intro h; simp [objHasKey] at h
  | cons kv rest ih =>
      intro h
      by_cases hk : kv.1 = k
      · exact ⟨kv.2, by simp [objGet, hk]⟩
      · simp only [objHasKey, if_neg hk] at h
        obtain ⟨v, hv⟩ := ih h
        exact ⟨v, by simp [objGet, hk, hv]⟩

theorem coherent_objGet (g : String → String) (k v : String) :
    ∀ (o : List (String × String)), (∀ c ∈ o, c.2 = g c.1) →
      objGet o k = some v → v = g k := by
  intro o
  induction o with
  | nil => intro _ h; simp [objGet] at h
  | cons kv rest ih =>
      intro hco h
      by_cases hk : kv.1 = k
      · have h2 : kv.2 = v := by simpa [objGet, hk] using h
        rw [← h2, hco kv (List.mem_cons_self kv rest), hk]
      · simp only [objGet, if_neg hk] at h
        exact ih (fun c hc => hco c (List.mem_cons_of_mem kv hc)) h

theorem mapAssign_id (g : String → String) (k : String) :
    ∀ (o : List (String × String)), (∀ c ∈ o, c.2 = g c.1) →
      o.map (fun kv => if kv.1 = k then (k, g k) else kv) = o := by
  intro o
  induction o with
  | nil => intro _; rfl
  | cons kv rest ih =>
      intro hco
      simp only [List.map_cons]
      rw [ih (fun c hc => hco c (List.mem_cons_of_mem kv hc))]
      by_cases hk : kv.1 = k
      · rw [if_pos hk]
        have h2 := hco kv (List.mem_cons_self kv rest)
        have h3 : (k, g k) = kv := by
          rw [← hk, ← h2]
        rw [h3]
      · rw [if_neg hk]

theorem objInsert_coherent (g : String → String) (k : String)
    (o : List (String × String)) (hco : ∀ c ∈ o, c.2 = g c.1) :
    objInsert o k (g k) = if objHasKey o k then o else o ++ [(k, g k)] := by
  cases h : objHasKey o k with
  | false => simp [objInsert, h]
  | true => simp [objInsert, h, mapAssign_id g k o hco]

theorem coherent_objInsert (g : String → String) (k : String)
    (o : List (String × String)) (hco : ∀ c ∈ o, c.2 = g c.1) :
    ∀ c ∈ objInsert o k (g k), c.2 = g c.1 := by
  intro c hc
  rw [objInsert_coherent g k o hco] at hc
  cases h : objHasKey o k with
  | true =>
      rw [h] at hc
      simp only [if_true] at hc
      exact hco c hc
  | false =>
      rw [h] at hc
      simp only [Bool.false_eq_true, if_false, List.mem_append,
        List.mem_singleton] at hc
      rcases hc with hc | hc
      · exact hco c hc
      · rw [hc]

theorem goodBook_objGet (g : String → String) (b : Book) (hb : GoodBook g b) :
    ∀ k ∈ b.chapterIds, objGet b.chapters k = some (g k) := by
  intro k hk
  obtain ⟨hco, hnd, hiff, hlen⟩ := hb
  have hkeys : k ∈ objKeys b.chapters := (hiff k).mpr hk
  have hhas : objHasKey b.chapters k = true := (objHasKey_iff k _).mpr hkeys
  obtain ⟨v, hv⟩ := objGet_of_hasKey k _ hhas
  rw [hv, coherent_objGet g k v _ hco hv]

theorem goodBook_insert (g : String → String) (b : Book) (c : String × String)
    (hc : c.2 = g c.1) (hb : GoodBook g b) : GoodBook g (bookInsertChapter b c) := by
  obtain ⟨hco, hnd, hiff, hlen⟩ := hb
  have hins : objInsert b.chapters c.1 c.2 =
      if objHasKey b.chapters c.1 then b.chapters
      else b.chapters ++ [(c.1, g c.1)] := by
    rw [hc]
    exact objInsert_coherent g c.1 b.chapters hco
  refine ⟨?_, ?_, ?_, ?_⟩
  · intro d hd
    rw [bookInsertChapter_chapters, hc] at hd
    exact coherent_objInsert g c.1 b.chapters hco d hd
  · rw [bookInsertChapter_chapters, hins]
    cases h : objHasKey b.chapters c.1 with
    | true => simpa using hnd
    | false =>
        simp only [Bool.false_eq_true, if_false]
        rw [objKeys_append_single, List.nodup_append]
        refine ⟨hnd, List.nodup_singleton c.1, ?_⟩
        intro a ha ha2
        rw [List.mem_singleton] at ha2
        rw [ha2] at ha
        have h2 : objHasKey b.chapters c.1 = true := (objHasKey_iff c.1 _).mpr ha
        rw [h] at h2
        exact absurd h2 (by simp)
  · intro k
    rw [bookInsertChapter_chapters, bookInsertChapter_chapterIds, hins]
    cases h : objHasKey b.chapters c.1 with
    | true =>
        simp only [if_true]
        constructor
        · intro hk
          exact List.mem_append.mpr (Or.inl ((hiff k).mp hk))
        · intro hk
          rcases List.mem_append.mp hk with hk | hk
          · exact (hiff k).mpr hk
          · rw [List.mem_singleton.mp hk]
            exact (objHasKey_iff c.1 _).mp h
    | false =>
        simp only [Bool.false_eq_true, if_false]
        rw [objKeys_append_single]
        constructor
        · intro hk
          rcases List.mem_append.mp hk with hk | hk
          · exact List.mem_append.mpr (Or.inl ((hiff k).mp hk))
          · exact List.mem_append.mpr (Or.inr hk)
        · intro hk
          rcases List.mem_append.mp hk with hk | hk
          · exact List.mem_append.mpr (Or.inl ((hiff k).mpr hk))
          · exact List.mem_append.mpr (Or.inr hk)
  · rw [bookInsertChapter_chapters, bookInsertChapter_chapterIds, hins]
    cases h : objHasKey b.chapters c.1 with
    | true =>
        simp only [if_true, List.length_append, List.length_singleton]
        omega
    | false =>
        simp only [Bool.false_eq_true, if_false, List.length_append,
          List.length_singleton]
        omega

theorem assembleReduce_filename :
    ∀ (chs : List (String × String)) (b : Book),
      (assembleReduce b chs).filename = b.filename := by
  intro chs
  induction chs with
  | nil => intro b; rfl
  | cons c rest ih =>
      intro b
      simpa [assembleReduce, bookInsertChapter] using ih (bookInsertChapter b c)

theorem assembleReduce_chapterIds :
    ∀ (chs : List (String × String)) (b : Book),
      (assembleReduce b chs).chapterIds = b.chapterIds ++ chs.map Prod.fst := by
  intro chs
  induction chs with
  | nil => intro b; simp [assembleReduce]
  | cons c rest ih =>
      intro b
      have h2 := ih (bookInsertChapter b c)
      simp only [assembleReduce, List.foldl_cons] at h2 ⊢
      rw [h2, bookInsertChapter_chapterIds]
      simp

theorem assembleReduce_good (g : String → String) :
    ∀ (chs : List (String × String)) (b : Book),
      (∀ c ∈ chs, c.2 = g c.1) → GoodBook g b →
        GoodBook g (assembleReduce b chs) := by
  intro chs
  induction chs with
  | nil => intro b _ hb; exact hb
  | cons c rest ih =>
      intro b hall hb
      simp only [assembleReduce, List.foldl_cons] at *
      exact ih (bookInsertChapter b c) (fun d hd => hall d (List.mem_cons_of_mem c hd))
        (goodBook_insert g b c (hall c (List.mem_cons_self c rest)) hb)

theorem collectOk_map_ok {α β : Type} (f : β → Except String α) (g : β → α) :
    ∀ (l : List β), (∀ x ∈ l, f x = Except.ok (g x)) →
      collectOk (l.map f) = Except.ok (l.map g) := by
  intro l
  induction l with
  | nil => intro _; rfl
  | cons x rest ih =>
      intro h
      have hx := h x (List.mem_cons_self x rest)
      have hr := ih (fun y hy => h y (List.mem_cons_of_mem x hy))
      simp [collectOk, hx, hr]

theorem collectOk_error_of_mem {α : Type} :
    ∀ (l : List (Except String α)), (∃ t ∈ l, isOkE t = false) →
      ∃ e, collectOk l = Except.error e := by
  intro l
  induction l with
  | nil => rintro ⟨t, ht, _⟩; exact absurd ht (List.not_mem_nil t)
  | cons t rest ih =>
      rintro ⟨u, hu, hbad⟩
      cases t with
      | error e => exact ⟨e, by simp [collectOk]⟩
      | ok a =>
          have hu2 : u ∈ rest := by
            rcases List.mem_cons.mp hu with h1 | h1
            · subst h1; simp [isOkE] at hbad
            · exact h1
          obtain ⟨e, he⟩ := ih ⟨u, hu2, hbad⟩
          refine ⟨e, ?_⟩
          simp [collectOk, he]

theorem firstReject_none {α : Type} (tasks : List (Except String α))
    (h : ∀ t ∈ tasks, isOkE t = true) :
    ∀ sched, firstReject tasks sched = none := by
  intro sched
  induction sched with
  | nil => rfl
  | cons i rest ih =>
      rw [firstReject]
      cases hi : tasks.get? i with
      | none => exact ih
      | some t =>
          cases t with
          | ok a => exact ih
          | error e =>
              have h2 := h (Except.error e) (List.get?_mem hi)
              simp [isOkE] at h2

theorem promiseAll_ok {α : Type} (tasks : List (Except String α))
    (h : ∀ t ∈ tasks, isOkE t = true) (sched : List Nat) :
    promiseAll tasks sched = collectOk tasks := by
  rw [promiseAll, firstReject_none tasks h sched]

theorem promiseAll_error {α : Type} (tasks : List (Except String α))
    (h : ∃ t ∈ tasks, isOkE t = false) (sched : List Nat) :
    ∃ e, promiseAll tasks sched = Except.error e := by
  rw [promiseAll]
  cases hf : firstReject tasks sched with
  | some e => exact ⟨e, rfl⟩
  | none => exact collectOk_error_of_mem tasks h

theorem chapterTasks_all_ok (e : Epub)
    (h : ∀ id ∈ e.flow, isOkE (e.getChapter id) = true) :
    ∀ t ∈ chapterTasks e, isOkE t = true := by
  intro t ht
  rw [chapterTasks] at ht
  obtain ⟨id, hid, rfl⟩ := List.mem_map.mp ht
  have h2 := h id hid
  cases hc : e.getChapter id with
  | ok a => simp [Except.map, hc, isOkE]
  | error er => rw [hc] at h2; simp [isOkE] at h2

theorem chapterTasks_pointwise (e : Epub)
    (h : ∀ id ∈ e.flow, isOkE (e.getChapter id) = true) :
    ∀ id ∈ e.flow,
      (e.getChapter id).map (fun t => (id, t)) =
        Except.ok (id, chapterTextD e id) := by
  intro id hid
  have h2 := h id hid
  cases hc : e.getChapter id with
  | ok a => simp [Except.map, chapterTextD, hc]
  | error er => rw [hc] at h2; simp [isOkE] at h2

theorem parseEpubSched_ok_all (path : String) (e : Epub) (sched : List Nat)
    (h : ∀ id ∈ e.flow, isOkE (e.getChapter id) = true) :
    parseEpubSched path e sched = Except.ok (bookOf path e) := by
  rw [parseEpubSched, promiseAll_ok (chapterTasks e) (chapterTasks_all_ok e h) sched]
  rw [chapterTasks, collectOk_map_ok _ (fun id => (id, chapterTextD e id)) e.flow
    (chapterTasks_pointwise e h)]
  rfl

theorem parseEpubSched_error_exists (path : String) (e : Epub) (sched : List Nat)
    (h : ∃ id ∈ e.flow, isOkE (e.getChapter id) = false) :
    ∃ err, parseEpubSched path e sched = Except.error err := by
  have ht : ∃ t ∈ chapterTasks e, isOkE t = false := by
    obtain ⟨id, hid, hbad⟩ := h
    refine ⟨(e.getChapter id).map (fun t => (id, t)), ?_, ?_⟩
    · rw [chapterTasks]
      exact List.mem_map.mpr ⟨id, hid, rfl⟩
    · cases hc : e.getChapter id with
      | ok a => rw [hc] at hbad; simp [isOkE] at hbad
      | error er => simp [Except.map, isOkE]
  obtain ⟨err, herr⟩ := promiseAll_error (chapterTasks e) ht sched
  exact ⟨err, by rw [parseEpubSched, herr]⟩

theorem parseEpubSched_ok_elim (path : String) (e : Epub) (sched : List Nat)
    (b : Book) (h : parseEpubSched path e sched = Except.ok b) :
    (∀ id ∈ e.flow, isOkE (e.getChapter id) = true) ∧ b = bookOf path e := by
  by_cases hall : ∀ id ∈ e.flow, isOkE (e.getChapter id) = true
  · have h2 := parseEpubSched_ok_all path e sched hall
    rw [h2] at h
    exact ⟨hall, ((Except.ok.injEq _ _).mp h).symm⟩
  · push_neg at hall
    obtain ⟨id, hid, hbad⟩ := hall
    obtain ⟨err, herr⟩ := parseEpubSched_error_exists path e sched
      ⟨id, hid, by simpa using hbad⟩
    rw [herr] at h
    exact absurd h (by simp)

theorem bookOf_chapterIds (path : String) (e : Epub) :
    (bookOf path e).chapterIds = e.flow := by
  rw [bookOf, assembleReduce_chapterIds]
  simp only [applyMetadata, initBook, List.map_map, List.nil_append]
  exact List.map_id e.flow

theorem bookOf_good (path : String) (e : Epub) :
    GoodBook (chapterTextD e) (bookOf path e) := by
  rw [bookOf]
  refine assembleReduce_good (chapterTextD e) _ _ ?_ ?_
  · intro c hc
    obtain ⟨id, _, rfl⟩ := List.mem_map.mp hc
    rfl
  · refine ⟨?_, ?_, ?_, ?_⟩ <;> simp [applyMetadata, initBook, objKeys]

theorem length_le_chunkSize_mul_numChunks (cfg : RunCfg) :
    cfg.paths.length ≤ chunkSize * numChunks cfg := by
  simp only [numChunks, chunkSize]
  omega

theorem groupPaths_length_le (cfg : RunCfg) (g : Nat) :
    (groupPaths cfg g).length ≤ chunkSize := by
  simp only [groupPaths, List.length_take]
  exact min_le_left _ _

theorem flatMap_range_groupPaths (cfg : RunCfg) :
    ∀ k, (List.range k).flatMap (groupPaths cfg) = cfg.paths.take (chunkSize * k) := by
  intro k
  induction k with
  | zero => simp
  | succ n ih =>
      rw [List.range_succ, List.flatMap_append, ih]
      simp only [List.flatMap_cons, List.flatMap_nil, List.append_nil]
      rw [show groupPaths cfg n = (cfg.paths.drop (chunkSize * n)).take chunkSize from rfl]
      rw [← List.take_add, Nat.mul_succ]

theorem groups_cover (cfg : RunCfg) :
    (List.range (numChunks cfg)).flatMap (groupPaths cfg) = cfg.paths := by
  rw [flatMap_range_groupPaths cfg (numChunks cfg)]
  exact List.take_of_length_le (length_le_chunkSize_mul_numChunks cfg)

theorem take_subset_take (l : List String) {m n : Nat} (h : m ≤ n) :
    l.take m ⊆ l.take n := by
  intro a ha
  have h2 : (l.take n).take m = l.take m := by
    rw [List.take_take, min_eq_left h]
  rw [← h2] at ha
  exact List.take_subset m (l.take n) ha

theorem nodup_take_drop {l : List String} (h : l.Nodup) (n : Nat) (a : String)
    (h1 : a ∈ l.take n) (h2 : a ∈ l.drop n) : False := by
  have h3 : (l.take n ++ l.drop n).Nodup := by
    rw [List.take_append_drop]
    exact h
  exact (List.nodup_append.mp h3).2.2 h1 h2

theorem groupPaths_subset_take (cfg : RunCfg) (g : Nat) :
    groupPaths cfg g ⊆ cfg.paths.take (chunkSize * (g + 1)) := by
  intro a ha
  rw [Nat.mul_succ, List.take_add]
  exact List.mem_append.mpr (Or.inr ha)

theorem groupPaths_subset_drop (cfg : RunCfg) (g : Nat) :
    groupPaths cfg g ⊆ cfg.paths.drop (chunkSize * g) := by
  intro a ha
  exact List.take_subset _ _ ha

theorem settledIn_append (t u : List Ev) (r : String) (h : settledIn t r) :
    settledIn (t ++ u) r := by
  rcases h with h | h
  · exact Or.inl (List.mem_append.mpr (Or.inl h))
  · exact Or.inr (List.mem_append.mpr (Or.inl h))

theorem schedInv_init (cfg : RunCfg) : SchedInv cfg (initState cfg) := by
  have hgrp : groupPaths cfg 0 = startedList cfg (initState cfg) := by
    simp [groupPaths, startedList, initState]
  refine ⟨?_, ?_, ?_, ?_⟩
  · intro h
    simp only [initState, decide_eq_false_iff_not] at h
    simp only [initState]
    omega
  · intro r
    rw [← hgrp]
    by_cases hz : numChunks cfg = 0 <;> simp [initState, hz]
  · intro r hr
    simp only [initState] at hr ⊢
    exact hr
  · intro r hr hnp
    rw [← hgrp] at hr
    simp only [initState] at hnp
    exact absurd hr hnp

theorem parseStart_mem_append_iff (t u : List Ev)
    (hns : ∀ r, Ev.parseStart r ∉ u) (r : String) :
    Ev.parseStart r ∈ t ++ u ↔ Ev.parseStart r ∈ t := by
  rw [List.mem_append]
  constructor
  · rintro (h | h)
    · exact h
    · exact absurd h (hns r)
  · exact Or.inl

theorem schedInv_step (cfg : RunCfg) (s : RunState) (c : Cmd)
    (h : SchedInv cfg s) : SchedInv cfg (applyCmd cfg s c) := by
  obtain ⟨hfin, hstart, hpend, hdone⟩ := h
  cases c with
  | settleParse p =>
      by_cases hp : p ∈ s.pendingParses
      · cases ho : cfg.parseOut p with
        | ok bk =>
            simp only [applyCmd, if_pos hp, ho]
            refine ⟨hfin, ?_, ?_, ?_⟩
            · intro r
              rw [parseStart_mem_append_iff _ _ (by intro r2; simp)]
              exact hstart r
            · intro r hr
              exact hpend r (List.mem_of_mem_erase hr)
            · intro r hr hnp
              by_cases hrp : r ∈ s.pendingParses
              · have hrpe : r = p := by
                  by_contra hne
                  exact hnp ((List.mem_erase_of_ne hne).mpr hrp)
                subst hrpe
                exact Or.inl (List.mem_append.mpr (Or.inr (by simp)))
              · exact settledIn_append _ _ r (hdone r hr hrp)
        | error er =>
            simp only [applyCmd, if_pos hp, ho]
            refine ⟨hfin, ?_, ?_, ?_⟩
            · intro r
              rw [parseStart_mem_append_iff _ _ (by intro r2; simp)]
              exact hstart r
            · intro r hr
              exact hpend r (List.mem_of_mem_erase hr)
            · intro r hr hnp
              by_cases hrp : r ∈ s.pendingParses
              · have hrpe : r = p := by
                  by_contra hne
                  exact hnp ((List.mem_erase_of_ne hne).mpr hrp)
                subst hrpe
                exact Or.inr (List.mem_append.mpr (Or.inr (by simp)))
              · exact settledIn_append _ _ r (hdone r hr hrp)
      · simp only [applyCmd, if_neg hp]
        exact ⟨hfin, hstart, hpend, hdone⟩
  | finishWrite f =>
      by_cases hf : f ∈ s.pendingWrites
      · simp only [applyCmd, if_pos hf]
        refine ⟨hfin, ?_, hpend, ?_⟩
        · intro r
          rw [parseStart_mem_append_iff _ _ ?_]
          · exact hstart r
          · intro r2
            cases hw : cfg.writeOut f <;> simp [writeCallbackEvents, hw]
        · intro r hr hnp
          exact settledIn_append _ _ r (hdone r hr hnp)
      · simp only [applyCmd, if_neg hf]
        exact ⟨hfin, hstart, hpend, hdone⟩
  | advance =>
      by_cases hg : (s.pendingParses.isEmpty && !s.aborted && !s.finished) = true
      · have hE : s.pendingParses = [] := by
          have h2 := hg
          simp only [Bool.and_eq_true] at h2
          exact List.isEmpty_iff.mp h2.1.1
        have hF : s.finished = false := by
          simp only [Bool.and_eq_true, Bool.not_eq_true'] at hg
          exact hg.2
        have hlt : s.chunkIdx < numChunks cfg := hfin hF
        by_cases hnext : s.chunkIdx + 1 < numChunks cfg
        · simp only [applyCmd]
          rw [if_pos hg, if_pos hnext]
          refine ⟨?_, ?_, ?_, ?_⟩
          · intro _
            exact hnext
          · intro r
            simp only [startedList]
            rw [List.mem_append]
            constructor
            · rintro (hr | hr)
              · refine take_subset_take cfg.paths ?_ ((hstart r).mp hr)
                exact Nat.mul_le_mul (le_refl chunkSize) (by omega)
              · simp only [List.mem_cons, List.mem_map] at hr
                rcases hr with hr | ⟨x, hx, hxe⟩
                · exact absurd hr (by simp)
                · have hxr : x = r := by
                    injection hxe
                  rw [← hxr]
                  exact groupPaths_subset_take cfg (s.chunkIdx + 1) hx
            · intro hr
              rw [Nat.mul_succ, List.take_add] at hr
              rcases List.mem_append.mp hr with hr | hr
              · exact Or.inl ((hstart r).mpr hr)
              · right
                exact List.mem_cons_of_mem _ (List.mem_map.mpr ⟨r, hr, rfl⟩)
          · intro r hr
            exact hr
          · intro r hr hnp
            simp only [startedList] at hr
            rw [Nat.mul_succ, List.take_add] at hr
            rcases List.mem_append.mp hr with hr | hr
            · refine settledIn_append _ _ r (hdone r hr ?_)
              rw [hE]
              exact List.not_mem_nil r
            · exact absurd hr hnp
        · simp only [applyCmd]
          rw [if_pos hg, if_neg hnext]
          have hceq : s.chunkIdx + 1 = numChunks cfg := by omega
          have hlen1 : cfg.paths.length ≤ chunkSize * (s.chunkIdx + 1) := by
            rw [hceq]
            exact length_le_chunkSize_mul_numChunks cfg
          have hall : cfg.paths.take (chunkSize * (s.chunkIdx + 1)) = cfg.paths :=
            List.take_of_length_le hlen1
          have hall2 : cfg.paths.take (chunkSize * (s.chunkIdx + 1 + 1)) = cfg.paths :=
            List.take_of_length_le
              (le_trans hlen1 (Nat.mul_le_mul (le_refl chunkSize) (by omega)))
          refine ⟨?_, ?_, ?_, ?_⟩
          · intro hcontra
            simp at hcontra
          · intro r
            rw [parseStart_mem_append_iff _ _ (by intro r2; simp)]
            simp only [startedList]
            rw [hall2, ← hall]
            exact hstart r
          · intro r hr
            rw [hE] at hr
            exact absurd hr (List.not_mem_nil r)
          · intro r hr hnp
            refine settledIn_append _ _ r (hdone r ?_ ?_)
            · simp only [startedList] at hr ⊢
              rw [hall2] at hr
              rw [hall]
              exact hr
            · rw [hE]
              exact List.not_mem_nil r
      · simp only [applyCmd]
        rw [if_neg hg]
        exact ⟨hfin, hstart, hpend, hdone⟩

theorem schedInv_run (cfg : RunCfg) (cmds : List Cmd) :
    SchedInv cfg (run cfg cmds) :=
  foldl_inv (applyCmd cfg) (SchedInv cfg)
    (fun s c h => schedInv_step cfg s c h) cmds (initState cfg) (schedInv_init cfg)

theorem barrier_of_inv (cfg : RunCfg) (s : RunState) (hinv : SchedInv cfg s)
    (hnd : cfg.paths.Nodup) (g : Nat) (p q : String)
    (hp : p ∈ groupPaths cfg (g + 1)) (hq : q ∈ groupPaths cfg g)
    (hst : Ev.parseStart p ∈ s.trace) : settledIn s.trace q := by
  obtain ⟨hfin, hstart, hpend, hdone⟩ := hinv
  have hps : p ∈ cfg.paths.take (chunkSize * (s.chunkIdx + 1)) := (hstart p).mp hst
  have hle : chunkSize * (g + 1) < chunkSize * (s.chunkIdx + 1) := by
    by_contra hcon
    push_neg at hcon
    have h2 : p ∈ cfg.paths.take (chunkSize * (g + 1)) :=
      take_subset_take cfg.paths hcon hps
    exact nodup_take_drop hnd (chunkSize * (g + 1)) p h2
      (groupPaths_subset_drop cfg (g + 1) hp)
  have hgc : g + 1 ≤ s.chunkIdx := by
    have h3 := Nat.lt_of_mul_lt_mul_left hle
    omega
  have hqt : q ∈ cfg.paths.take (chunkSize * (s.chunkIdx + 1)) :=
    take_subset_take cfg.paths
      (Nat.mul_le_mul (le_refl chunkSize) (by omega))
      (groupPaths_subset_take cfg g hq)
  have hqp : q ∉ s.pendingParses := by
    intro hmem
    have h1 : q ∈ cfg.paths.drop (chunkSize * s.chunkIdx) :=
      groupPaths_subset_drop cfg s.chunkIdx (hpend q hmem)
    have h2 : q ∈ cfg.paths.take (chunkSize * s.chunkIdx) :=
      take_subset_take cfg.paths
        (Nat.mul_le_mul (le_refl chunkSize) hgc)
        (groupPaths_subset_take cfg g hq)
    exact nodup_take_drop hnd (chunkSize * s.chunkIdx) q h2 h1
  exact hdone q hqt hqp

theorem applyCmd_trace_no_summary (cfg : RunCfg) (s : RunState) (c : Cmd) :
    ∃ t, (applyCmd cfg s c).trace = s.trace ++ t ∧
      ∀ a b d, Ev.runSummary a b d ∉ t := by
  cases c with
  | settleParse p =>
      by_cases hp : p ∈ s.pendingParses
      · cases ho : cfg.parseOut p with
        | ok bk =>
            refine ⟨[Ev.parseSettle p true,
              Ev.writeStart (outputFileName bk cfg.outputPath)], ?_, ?_⟩
            · simp only [applyCmd, if_pos hp, ho]
            · intro a b d
              simp
        | error er =>
            refine ⟨[Ev.parseSettle p false, Ev.logParseError p], ?_, ?_⟩
            · simp only [applyCmd, if_pos hp, ho]
            · intro a b d
              simp
      · refine ⟨[], ?_, by intro a b d; simp⟩
        simp [applyCmd, hp]
  | finishWrite f =>
      by_cases hf : f ∈ s.pendingWrites
      · refine ⟨writeCallbackEvents f (cfg.writeOut f), ?_, ?_⟩
        · simp only [applyCmd, if_pos hf]
        · intro a b d
          cases hw : cfg.writeOut f <;> simp [writeCallbackEvents, hw]
      · refine ⟨[], ?_, by intro a b d; simp⟩
        simp [applyCmd, hf]
  | advance =>
      by_cases hg : (s.pendingParses.isEmpty && !s.aborted && !s.finished) = true
      · by_cases hnext : s.chunkIdx + 1 < numChunks cfg
        · refine ⟨Ev.spinnerText ("chunk " ++ toString s.chunkIdx)
              :: (groupPaths cfg (s.chunkIdx + 1)).map Ev.parseStart, ?_, ?_⟩
          · simp only [applyCmd]
            rw [if_pos hg, if_pos hnext]
          · intro a b d
            simp
        · refine ⟨[Ev.spinnerText ("chunk " ++ toString s.chunkIdx),
              Ev.spinnerStop], ?_, ?_⟩
          · simp only [applyCmd]
            rw [if_pos hg, if_neg hnext]
          · intro a b d
            simp
      · refine ⟨[], ?_, by intro a b d; simp⟩
        simp only [applyCmd]
        rw [if_neg hg, List.append_nil]

theorem run_no_summary (cfg : RunCfg) (cmds : List Cmd) :
    ∀ a b d, Ev.runSummary a b d ∉ (run cfg cmds).trace := by
  refine foldl_inv (applyCmd cfg) (fun s => ∀ a b d, Ev.runSummary a b d ∉ s.trace)
    ?_ cmds (initState cfg) ?_
  · intro s c hs a b d hmem
    obtain ⟨t, ht, hnot⟩ := applyCmd_trace_no_summary cfg s c
    rw [ht] at hmem
    rcases List.mem_append.mp hmem with hmem | hmem
    · exact hs a b d hmem
    · exact hnot a b d hmem
  · intro a b d hmem
    by_cases hz : numChunks cfg = 0 <;> simp [initState, hz] at hmem

theorem applyCmd_fix_empty (po : String → Except String Book)
    (wo : String → Option String) (op : String) (c : Cmd) :
    applyCmd { paths := [], parseOut := po, writeOut := wo, outputPath := op }
      (initState { paths := [], parseOut := po, writeOut := wo, outputPath := op }) c
      = initState { paths := [], parseOut := po, writeOut := wo, outputPath := op } := by
  cases c with
  | settleParse p => simp [applyCmd, initState, groupPaths]
  | finishWrite f => simp [applyCmd, initState]
  | advance => simp [applyCmd, initState, numChunks, chunkSize]

theorem run_empty_trace (po : String → Except String Book)
    (wo : String → Option String) (op : String) (cmds : List Cmd) :
    (run { paths := [], parseOut := po, writeOut := wo, outputPath := op } cmds).trace
      = [Ev.spinnerStart, Ev.spinnerStop] := by
  have hfix : run { paths := [], parseOut := po, writeOut := wo, outputPath := op } cmds
      = initState { paths := [], parseOut := po, writeOut := wo, outputPath := op } := by
    refine foldl_inv _
      (fun s => s = initState { paths := [], parseOut := po, writeOut := wo, outputPath := op })
      ?_ cmds _ rfl
    intro s c hs
    rw [hs]
    exact applyCmd_fix_empty po wo op c
  rw [hfix]
  simp [initState, groupPaths, numChunks, chunkSize]

theorem c1inv_init : C1Inv (initState cfgFail) :=
  ⟨Or.inl (by decide), by decide, by decide, by decide⟩

theorem c1inv_step (s : RunState) (c : Cmd) (h : C1Inv s) :
    C1Inv (applyCmd cfgFail s c) := by
  obtain ⟨h1, h2, h3, h4⟩ := h
  cases c with
  | settleParse p =>
      by_cases hp : p ∈ s.pendingParses
      · by_cases he : p = "a0.epub"
        · subst he
          have ho : cfgFail.parseOut "a0.epub" = Except.error "chapter read error" := rfl
          simp only [applyCmd, if_pos hp, ho]
          exact ⟨Or.inr rfl, by simp [h2], by simp [h3], by simp [h4]⟩
        · have ho : cfgFail.parseOut p = Except.ok (initBook p) := by
            simp [cfgFail, okParse, he]
          simp only [applyCmd, if_pos hp, ho]
          refine ⟨?_, by simp [h2], by simp [h3], by simp [h4]⟩
          rcases h1 with h1 | h1
          · exact Or.inl ((List.mem_erase_of_ne (fun hh => he hh.symm)).mpr h1)
          · exact Or.inr h1
      · simp only [applyCmd, if_neg hp]
        exact ⟨h1, h2, h3, h4⟩
  | finishWrite f =>
      by_cases hf : f ∈ s.pendingWrites
      · have hw : cfgFail.writeOut f = none := rfl
        simp only [applyCmd, if_pos hf, hw, writeCallbackEvents]
        exact ⟨h1, by simp [h2], by simp [h3], by simp [h4]⟩
      · simp only [applyCmd, if_neg hf]
        exact ⟨h1, h2, h3, h4⟩
  | advance =>
      have hg : (s.pendingParses.isEmpty && !s.aborted && !s.finished) = false := by
        rcases h1 with h1 | h1
        · have hne : s.pendingParses ≠ [] := List.ne_nil_of_mem h1
          have hie : s.pendingParses.isEmpty = false := by
            rw [← Bool.not_eq_true, List.isEmpty_iff]
            exact hne
          simp [hie]
        · simp [h1]
      simp only [applyCmd, hg, Bool.false_eq_true, if_false]
      exact ⟨h1, h2, h3, h4⟩

theorem evMem_false (t : List Ev) (e : Ev) (h : e ∉ t) : evMem t e = false := by
  simp only [evMem, List.any_eq_false, decide_eq_true_eq]
  intro x hx hxe
  exact h (hxe ▸ hx)

/-- C1: the claim says that after an individual archive conversion
fails the scheduler still processes every remaining group. The code
awaits Promise.all over the raw task promises, so the first rejection
rejects the awaited barrier, the loop is abandoned and no later group
is ever attempted: in the eleven-path run cfgFail whose first archive
fails, no schedule of the event loop ever starts the group-one parse
task, stops the spinner, or even reaches the group-zero progress
notification. This evaluates the code at the failing input of the
code_bug verdict. -/
theorem c1_failure_abandons_later_groups (cmds : List Cmd) :
    evMem (run cfgFail cmds).trace (Ev.parseStart "a10.epub") = false ∧
    evMem (run cfgFail cmds).trace Ev.spinnerStop = false ∧
    evMem (run cfgFail cmds).trace (Ev.spinnerText "chunk 0") = false := by
  have h := (foldl_inv (applyCmd cfgFail) C1Inv (fun s c h => c1inv_step s c h) cmds
    (initState cfgFail) c1inv_init).2
  exact ⟨evMem_false _ _ h.1, evMem_false _ _ h.2.1, evMem_false _ _ h.2.2⟩

/-- C2 counterexample: in the all-success run cfgOk under schedule
cmdsOk, the first parse task of group one starts strictly before the
JsonWriter write of group zero for a0.epub completes and prints its
notice, so the barrier between groups does not cover the full
BookAssembler-then-JsonWriter pipeline as the claim states. -/
theorem c2_counterexample :
    occursBefore (run cfgOk cmdsOk).trace (Ev.parseStart "a10.epub")
      (Ev.logOutput "o/a0.json") = true ∧
    Ev.writeStart "o/a0.json" ∈ (run cfgOk cmdsOk).trace := by
  refine ⟨by decide, by decide⟩

/-- C2 (amended): the discovered path list is partitioned into
contiguous groups of at most chunkSize paths in discovery order
(joining the groups in order gives back the path list), and in every
reachable state of every schedule, if a parse task of group g+1 has
started then every parse task of group g has already settled. The
write started for a successful task is not part of the barrier. -/
theorem c2_grouping_and_parse_barrier (cfg : RunCfg) (cmds : List Cmd)
    (g : Nat) (p q : String) :
    (groupPaths cfg g).length ≤ chunkSize ∧
    (List.range (numChunks cfg)).flatMap (groupPaths cfg) = cfg.paths ∧
    (cfg.paths.Nodup → p ∈ groupPaths cfg (g + 1) → q ∈ groupPaths cfg g →
      Ev.parseStart p ∈ (run cfg cmds).trace → settledIn (run cfg cmds).trace q) :=
  ⟨groupPaths_length_le cfg g, groups_cover cfg,
   fun hnd hp hq hst =>
     barrier_of_inv cfg (run cfg cmds) (schedInv_run cfg cmds) hnd g p q hp hq hst⟩

/-- C2 witness: the amended barrier applied to the concrete run cfgOk
under cmdsOk at groups one and zero. -/
theorem c2_grouping_and_parse_barrier_witness :
    settledIn (run cfgOk cmdsOk).trace "a0.epub" :=
  (c2_grouping_and_parse_barrier cfgOk cmdsOk 0 "a10.epub" "a0.epub").2.2
    (by decide) (by decide) (by decide) (by decide)

/-- C3 counterexample: for the archive path /in/book.epub the
conversion succeeds and the filename field of the assembled Book is
book.epub, the base name with its extension kept, not book as the
claim states. -/
theorem c3_counterexample :
    parseEpubSched "/in/book.epub" epubA [0]
      = Except.ok (bookOf "/in/book.epub" epubA) ∧
    (bookOf "/in/book.epub" epubA).filename = "book.epub" ∧
    ((bookOf "/in/book.epub" epubA).filename == "book") = false := by
  refine ⟨rfl, by decide, by decide⟩

/-- C3 (amended): every assembled Book carries the source path base
name with its extension kept in the filename field, and the output
file written for it is the normalized output directory, a slash, the
base name without its extension, and the json extension. -/
theorem c3_filename_and_output_path (path outputPath : String) (e : Epub)
    (sched : List Nat) (b : Book)
    (h : parseEpubSched path e sched = Except.ok b) :
    b.filename = basename path ∧
    outputFileName b outputPath =
      normalize outputPath ++ "/" ++ parseNameNode (basename path) ++ ".json" := by
  have hb : b.filename = basename path := by
    rw [parseEpubSched] at h
    cases hm : promiseAll (chapterTasks e) sched with
    | error er =>
        rw [hm] at h
        exact absurd h (by simp)
    | ok chs =>
        rw [hm] at h
        simp only [Except.ok.injEq] at h
        rw [← h, assembleReduce_filename]
        rfl
  refine ⟨hb, ?_⟩
  rw [outputFileName, hb]

/-- C3 witness: the amended statement at the concrete archive path
/in/w.epub converted through epubA. -/
theorem c3_filename_and_output_path_witness :
    (bookOf "/in/w.epub" epubA).filename = basename "/in/w.epub" ∧
    outputFileName (bookOf "/in/w.epub" epubA) "/out" =
      normalize "/out" ++ "/" ++ parseNameNode (basename "/in/w.epub") ++ ".json" :=
  c3_filename_and_output_path "/in/w.epub" "/out" epubA [0]
    (bookOf "/in/w.epub" epubA) rfl

/-- C4: the claim says a missing metadata field stays an empty string
and all nine keys are serialized. In the code the initialized empty
strings are unconditionally overwritten with the metadata fields, so a
missing creator makes the Book creator undefined (not the empty
string) and JSON.stringify omits the creator key: only eight keys are
emitted. Assembly itself still succeeds. This evaluates the code at
the failing input of the code_bug verdict. -/
theorem c4_missing_metadata_not_kept_empty :
    parseEpubSched "m.epub" epubNoCreator [0]
      = Except.ok (bookOf "m.epub" epubNoCreator) ∧
    (bookOf "m.epub" epubNoCreator).creator = none ∧
    ((bookOf "m.epub" epubNoCreator).creator == some "") = false ∧
    serializedKeys (bookOf "m.epub" epubNoCreator)
      = ["filename", "title", "language", "subject", "date", "description",
         "chapterIds", "chapters"] ∧
    (serializedKeys (bookOf "m.epub" epubNoCreator)).contains "creator" = false := by
  refine ⟨rfl, by decide, by decide, by decide, by decide⟩

/-- C5 counterexample: for the empty-input run the complete trace is
spinner start followed by spinner stop, and in particular the all-zero
RunSummary that the claim requires is never emitted. -/
theorem c5_counterexample :
    evMem (run cfgEmpty []).trace (Ev.runSummary 0 0 0) = false := by
  decide

/-- C5 (amended): no run ever emits a RunSummary event with counts
under any schedule, and for an input directory with zero matching
archives no group is processed: the entire trace is spinner start
followed by spinner stop. -/
theorem c5_no_summary_and_empty_run (cfg : RunCfg) (cmds cmds2 : List Cmd)
    (po : String → Except String Book) (wo : String → Option String)
    (op : String) (a b d : Nat) :
    evMem (run cfg cmds).trace (Ev.runSummary a b d) = false ∧
    (run { paths := [], parseOut := po, writeOut := wo, outputPath := op } cmds2).trace
      = [Ev.spinnerStart, Ev.spinnerStop] :=
  ⟨evMem_false _ _ (run_no_summary cfg cmds a b d), run_empty_trace po wo op cmds2⟩

/-- C6: when every chapter of the archive resolves, the conversion
result is independent of the settle order of the concurrent chapter
resolutions, it succeeds, and the chapterIds sequence of the assembled
Book equals the spine of the archive. -/
theorem c6_reading_order_preserved (path : String) (e : Epub)
    (sched sched2 : List Nat)
    (h : ∀ id ∈ e.flow, isOkE (e.getChapter id) = true) :
    parseEpubSched path e sched = parseEpubSched path e sched2 ∧
    parseEpubSched path e sched = Except.ok (bookOf path e) ∧
    (bookOf path e).chapterIds = e.flow := by
  have h1 := parseEpubSched_ok_all path e sched h
  have h2 := parseEpubSched_ok_all path e sched2 h
  exact ⟨h1.trans h2.symm, h1, bookOf_chapterIds path e⟩

/-- C6 witness: the reading-order theorem at the concrete archive
epubDup under two different settle orders. -/
theorem c6_reading_order_preserved_witness :
    parseEpubSched "/in/book.epub" epubDup [1, 0]
      = parseEpubSched "/in/book.epub" epubDup [0, 1] ∧
    parseEpubSched "/in/book.epub" epubDup [1, 0]
      = Except.ok (bookOf "/in/book.epub" epubDup) ∧
    (bookOf "/in/book.epub" epubDup).chapterIds = epubDup.flow :=
  c6_reading_order_preserved "/in/book.epub" epubDup [1, 0] [0, 1] (by decide)

/-- C7: if any chapter of the archive fails to resolve then the whole
conversion fails with an error under every settle order and no Book is
produced; and whenever a Book is produced, every spine chapter
resolved and its text is present in the chapters mapping: assembly is
all-or-nothing. -/
theorem c7_all_or_nothing (path : String) (e : Epub) (sched : List Nat) :
    ((∃ id, id ∈ e.flow ∧ isOkE (e.getChapter id) = false) →
      isOkE (parseEpubSched path e sched) = false) ∧
    (∀ b, parseEpubSched path e sched = Except.ok b →
      ∀ id, id ∈ e.flow →
        ∃ t, e.getChapter id = Except.ok t ∧ objGet b.chapters id = some t) := by
  constructor
  · rintro ⟨id, hid, hbad⟩
    obtain ⟨err, herr⟩ := parseEpubSched_error_exists path e sched ⟨id, hid, hbad⟩
    rw [herr]
    rfl
  · intro b hb id hid
    obtain ⟨hall, rfl⟩ := parseEpubSched_ok_elim path e sched b hb
    have hok := hall id hid
    refine ⟨chapterTextD e id, ?_, ?_⟩
    · cases hc : e.getChapter id with
      | ok t => simp [chapterTextD, hc]
      | error er => rw [hc] at hok; simp [isOkE] at hok
    · have hids : id ∈ (bookOf path e).chapterIds := by
        rw [bookOf_chapterIds]
        exact hid
      exact goodBook_objGet (chapterTextD e) (bookOf path e) (bookOf_good path e) id hids

/-- C7 witness: the all-or-nothing theorem at the concrete archive
epubBad whose only chapter fails: the conversion is not successful. -/
theorem c7_all_or_nothing_witness :
    isOkE (parseEpubSched "bad.epub" epubBad [0]) = false :=
  (c7_all_or_nothing "bad.epub" epubBad [0]).1 ⟨"c1", by decide, by decide⟩

/-- C8 counterexample: on a failing write the callback still prints
the Output notice naming the output path in addition to the failure
notice, so the failure notice is not emitted instead of the success
notice as the claim states. -/
theorem c8_counterexample :
    writeJSONEvents (initBook "/in/sample.epub") "/out" (some "EACCES")
      = [Ev.writeStart "/out/sample.json", Ev.logOutput "/out/sample.json",
         Ev.logWriteError "/out/sample.json"] ∧
    Ev.logOutput "/out/sample.json" ∈
      writeJSONEvents (initBook "/in/sample.epub") "/out" (some "EACCES") := by
  refine ⟨by decide, by decide⟩

/-- C8 (amended): writeJSON always emits the Output notice naming the
output path; on a write failure it additionally emits the distinct
Unable-to-write notice; and in both cases it returns without raising
the failure (the events are the entire effect of the call). -/
theorem c8_write_notices (b : Book) (outputPath : String) (err : String) :
    writeJSONEvents b outputPath none
      = [Ev.writeStart (outputFileName b outputPath),
         Ev.logOutput (outputFileName b outputPath)] ∧
    writeJSONEvents b outputPath (some err)
      = [Ev.writeStart (outputFileName b outputPath),
         Ev.logOutput (outputFileName b outputPath),
         Ev.logWriteError (outputFileName b outputPath)] :=
  ⟨rfl, rfl⟩

/-- C9: validPath returns true exactly when the path exists, lstat
classifies it as a directory, and the access check for the requested
mode succeeds; and it returns the filesystem world unchanged, so it
performs no side effects. -/
theorem c9_validPath_iff (w : FsWorld) (p : String) (m : Nat) :
    ((validPath w p m).1 = (w.statExists p && w.lstatIsDir p && w.accessOk p m)) ∧
    (validPath w p m).2 = w := by
  refine ⟨?_, rfl⟩
  cases h1 : w.statExists p <;> cases h2 : w.lstatIsDir p <;>
    cases h3 : w.accessOk p m <;> simp [validPath, h1, h2, h3]

/-- C10: for every successfully assembled Book, the chapters object
has no duplicate keys, its key set equals the set of entries of
chapterIds, every listed chapter id maps to its resolved text, and the
object has at most as many entries as the id sequence (fewer when the
spine repeats an id). -/
theorem c10_chapters_mapping (path : String) (e : Epub) (sched : List Nat)
    (b : Book) (h : parseEpubSched path e sched = Except.ok b) :
    (objKeys b.chapters).Nodup ∧
    (∀ k, k ∈ objKeys b.chapters ↔ k ∈ b.chapterIds) ∧
    (∀ k, k ∈ b.chapterIds →
      ∃ t, e.getChapter k = Except.ok t ∧ objGet b.chapters k = some t) ∧
    b.chapters.length ≤ b.chapterIds.length := by
  obtain ⟨hall, rfl⟩ := parseEpubSched_ok_elim path e sched b h
  obtain ⟨hco, hnd, hiff, hlen⟩ := bookOf_good path e
  refine ⟨hnd, hiff, ?_, hlen⟩
  intro k hk
  have hok := hall k (by rwa [bookOf_chapterIds] at hk)
  refine ⟨chapterTextD e k, ?_,
    goodBook_objGet (chapterTextD e) _ (bookOf_good path e) k hk⟩
  cases hc : e.getChapter k with
  | ok t => simp [chapterTextD, hc]
  | error er => rw [hc] at hok; simp [isOkE] at hok

/-- C10 witness: the mapping theorem at the concrete duplicate-spine
archive epubDup, where chapterIds has two entries but the chapters
object holds a single entry. -/
theorem c10_chapters_mapping_witness :
    ((objKeys (bookOf "d.epub" epubDup).chapters).Nodup ∧
     (∀ k, k ∈ objKeys (bookOf "d.epub" epubDup).chapters ↔
        k ∈ (bookOf "d.epub" epubDup).chapterIds) ∧
     (∀ k, k ∈ (bookOf "d.epub" epubDup).chapterIds →
       ∃ t, epubDup.getChapter k = Except.ok t ∧
         objGet (bookOf "d.epub" epubDup).chapters k = some t) ∧
     (bookOf "d.epub" epubDup).chapters.length
       ≤ (bookOf "d.epub" epubDup).chapterIds.length) ∧
    (bookOf "d.epub" epubDup).chapters.length = 1 ∧
    (bookOf "d.epub" epubDup).chapterIds.length = 2 :=
  ⟨c10_chapters_mapping "d.epub" epubDup [0, 1] (bookOf "d.epub" epubDup) rfl,
   by decide, by decide⟩

end Epub2Json
